import Mathlib

/- A shallow embedding of the crawl engine of crawler.py
   (class AndroidMarketCrawler): the frontier queue, the dispatched-URL
   set, the seen-entity-id set, the result stream, the worker pool, and
   the URL helper functions query_vars, get_id and absolute_url.

   The HTTP fetch and the HTML-dependent parts of classification and
   extraction are external collaborators; they enter the model as an
   environment that fixes, per URL, the fetch outcome, the raw links on
   the page, the page-validity verdict, the optionally extracted record
   and the point (if any) at which the extraction code raises.

   The engine itself is a labelled transition system.  One step is one
   atomic critical section of the source: delivering the head of the
   result queue to the consumer, dequeuing a URL and either dropping it
   (empty string, already in `seen`, or its id already in
   `seen_app_ids`) or marking it seen and spawning a fetch task, a
   spawned task completing and applying all its effects, or the
   completion signal (StopIteration) when queue, pool and results are
   simultaneously empty. -/

namespace Crawler

/-! ### Plain character-list string utilities -/

def hasPrefixL : List Char → List Char → Bool
  | [], _ => true
  | _ :: _, [] => false
  | p :: ps, c :: cs => decide (p = c) && hasPrefixL ps cs

def containsL (pat : List Char) : List Char → Bool
  | [] => hasPrefixL pat []
  | c :: cs => hasPrefixL pat (c :: cs) || containsL pat cs

def strStartsWith (s pre : String) : Bool := hasPrefixL pre.toList s.toList

def strContains (s pat : String) : Bool := containsL pat.toList s.toList

/-! ### query_vars / get_id / absolute_url (crawler.py lines 280-311) -/

def plusToSpace (c : Char) : Char := if c = '+' then ' ' else c

def isHexDigit (c : Char) : Bool :=
  (48 ≤ c.toNat && c.toNat ≤ 57) || (97 ≤ c.toNat && c.toNat ≤ 102) ||
    (65 ≤ c.toNat && c.toNat ≤ 70)

def hexVal (c : Char) : Nat :=
  if 48 ≤ c.toNat && c.toNat ≤ 57 then c.toNat - 48
  else if 97 ≤ c.toNat then c.toNat - 87
  else c.toNat - 55

/-- Percent-decoding as done by urllib.unquote: a percent sign followed by
two hexadecimal digits becomes the corresponding byte, any other percent
sign is kept literally. -/
def percentDecode : List Char → List Char
  | [] => []
  | '%' :: h :: l :: rest =>
    if isHexDigit h && isHexDigit l then
      Char.ofNat (16 * hexVal h + hexVal l) :: percentDecode rest
    else '%' :: percentDecode (h :: l :: rest)
  | c :: rest => c :: percentDecode rest

/-- urllib.unquote_plus: plus signs become spaces, then percent-decoding. -/
def unquote_plus (s : String) : String :=
  String.mk (percentDecode (s.toList.map plusToSpace))

/-- Python str.split on a single separator character (here used for
splitting the query on ampersands): the empty string gives one empty part. -/
def splitAmp : List Char → List (List Char)
  | [] => [[]]
  | c :: rest =>
    if c = '&' then [] :: splitAmp rest
    else
      match splitAmp rest with
      | [] => [[c]]
      | x :: xs => (c :: x) :: xs

/-- Python part.split with separator equals-sign and maxsplit 1: the part
before the first equals sign, and the remainder when there is one. -/
def splitFirstEq : List Char → List Char × Option (List Char)
  | [] => ([], none)
  | c :: rest =>
    if c = '=' then ([], some rest)
    else
      let p := splitFirstEq rest
      (c :: p.1, p.2)

/-- Assignment into a Python dict modelled on association lists: an existing
binding of the key is overwritten, a new key is appended. -/
def dictInsert : List (String × String) → String → String → List (String × String)
  | [], k, v => [(k, v)]
  | (k2, v2) :: rest, k, v =>
    if k2 = k then (k, v) :: rest else (k2, v2) :: dictInsert rest k v

def dictGet : List (String × String) → String → Option String
  | [], _ => none
  | (k2, v) :: rest, k => if k2 = k then some v else dictGet rest k

/-- The query part selected by the regular expression of query_vars
(one-or-more non-question-mark characters, a question mark, then the
captured rest of the string): the text after the first question mark that
is immediately preceded by a non-question-mark character. -/
def findQuery : List Char → Option (List Char)
  | [] => none
  | [_] => none
  | a :: b :: rest =>
    if decide (a ≠ '?') && decide (b = '?') then some rest
    else findQuery (b :: rest)

/-- The loop body of query_vars: split the query on ampersands, split each
part at the first equals sign, plus-and-percent-decode, assign into the
dict (so a repeated key keeps the last value; a part with no equals sign
maps its decoded key to the empty string). -/
def assembleQuery (q : List Char) : List (String × String) :=
  (splitAmp q).foldl
    (fun m part =>
      let kv := splitFirstEq part
      match kv.2 with
      | some v => dictInsert m (unquote_plus (String.mk kv.1)) (unquote_plus (String.mk v))
      | none => dictInsert m (unquote_plus (String.mk kv.1)) "")
    []

/-- AndroidMarketCrawler.query_vars (crawler.py lines 287-303). -/
def query_vars (url : String) : List (String × String) :=
  match findQuery url.toList with
  | some q => assembleQuery q
  | none => []

/-- AndroidMarketCrawler.get_id (crawler.py lines 280-285). -/
def get_id (url : String) : Option String := dictGet (query_vars url) "id"

/-- AndroidMarketCrawler.absolute_url (crawler.py lines 305-311): a URL
starting with a slash is prefixed with the Marketplace base, anything
else (including the empty string) is returned unchanged. -/
def absolute_url (url : String) : String :=
  if strStartsWith url "/" then "https://market.android.com" ++ url else url

/-- The href filter of fetch_content (crawler.py lines 152-158): the three
re.search conditions are substring tests for "/details?" or "/developer?",
against "reviewId", and against "accounts/ServiceLogin". -/
def linkFilter (href : String) : Bool :=
  (strContains href "/details?" || strContains href "/developer?") &&
    !strContains href "reviewId" && !strContains href "accounts/ServiceLogin"

/-- The values put on the queue by the link loop of fetch_content
(crawler.py lines 160-163): filtered hrefs, skipping falsy ones, each
passed through absolute_url, in page order. -/
def enqueueList (hrefs : List String) : List String :=
  ((hrefs.filter linkFilter).filter (fun l => decide (l ≠ ""))).map absolute_url

/-! ### The engine state machine -/

/-- An extracted record: its entity id (`uid` in the source) plus the other
extracted fields, opaque to the engine. -/
structure Record where
  uid : String
  fields : String
deriving DecidableEq, Repr

/-- What the environment answers for one URL: HTTP 404, another non-200
status, or a 200 page carrying its raw hrefs, the is_page_valid verdict,
the record fetch_app_info would build, and the optional point in the try
block of fetch_content at which extraction raises (counted in completed
enqueue iterations). -/
inductive Fetched where
  | notFound
  | failure
  | ok (hrefs : List String) (valid : Bool) (app : Option Record) (raiseAt : Option Nat)
deriving DecidableEq, Repr

structure TaskEffect where
  enqueues : List String
  app : Option Record
  countsFailed : Bool
deriving DecidableEq, Repr

/-- The effects of one fetch_content task (crawler.py lines 114-178):
404 has no effect; another non-200 status only increments the failure
counter; an invalid page has no effect; a valid page enqueues its filtered
links and then records its app, except that an exception after k enqueues
abandons the remaining enqueues and the record, silently. -/
def taskEffect : Fetched → TaskEffect
  | .notFound => ⟨[], none, false⟩
  | .failure => ⟨[], none, true⟩
  | .ok hrefs valid app raiseAt =>
    if valid then
      match raiseAt with
      | some k => ⟨(enqueueList hrefs).take k, none, false⟩
      | none => ⟨enqueueList hrefs, app, false⟩
    else ⟨[], none, false⟩

/-- The mutable state of one AndroidMarketCrawler instance, plus the list
of records already handed to the consumer by next. -/
structure State where
  queue : List String
  running : List String
  results : List Record
  seen : List String
  seen_app_ids : List String
  failed : Nat
  delivered : List Record
deriving DecidableEq, Repr

structure Env where
  fetch : String → Fetched
  concurrency : Nat

def seedU : String := "https://market.android.com/"

/-- AndroidMarketCrawler.__init__ (crawler.py lines 57-76): the queue is
seeded with the root URL, everything else is empty. -/
def initState : State := ⟨[seedU], [], [], [], [], 0, []⟩

/-- The skip conditions of next (crawler.py lines 96-102): the dequeued
value is falsy, or already in `seen`, or its id parameter is a member of
`seen_app_ids`. -/
def dropCond (s : State) (u : String) : Bool :=
  decide (u = "") || decide (u ∈ s.seen) ||
    (match get_id u with
     | some i => decide (i ∈ s.seen_app_ids)
     | none => false)

/-- Effect of a produced record on `seen_app_ids`: its uid is added
(crawler.py line 170). -/
def idsAfter (ids : List String) : Option Record → List String
  | some r => ids.insert r.uid
  | none => ids

/-- Effect of a produced record on the results queue: it is pushed,
without any membership test against `seen_app_ids` (crawler.py line 171). -/
def resultsAfter (res : List Record) : Option Record → List Record
  | some r => res ++ [r]
  | none => res

/-- The state after a running task for `u` finishes: the task leaves the
pool, its enqueues are appended to the queue, the failure counter grows on
a non-404 non-200 status, and a produced record has its uid added to
`seen_app_ids` and is pushed onto the results queue. -/
def completeState (env : Env) (s : State) (u : String) : State :=
  { s with
      running := s.running.erase u
      queue := s.queue ++ (taskEffect (env.fetch u)).enqueues
      failed := s.failed + (if (taskEffect (env.fetch u)).countsFailed then 1 else 0)
      seen_app_ids := idsAfter s.seen_app_ids (taskEffect (env.fetch u)).app
      results := resultsAfter s.results (taskEffect (env.fetch u)).app }

inductive Label where
  | deliver (r : Record)
  | spawn (u : String)
  | drop (u : String)
  | complete (u : String)
  | done
deriving DecidableEq, Repr

/-- One atomic step of the engine.  `deliver` is next returning the head
of the results queue; `drop` and `spawn` are one iteration of the dispatch
loop of next on a dequeued URL; `complete` is a fetch task finishing and
applying its effects; `done` is next raising StopIteration, enabled
exactly when the queue, the pool and the results are all empty. -/
inductive Step (env : Env) : State → Label → State → Prop where
  | deliver {s : State} {r : Record} {rest : List Record} (h : s.results = r :: rest) :
      Step env s (Label.deliver r) { s with results := rest, delivered := s.delivered ++ [r] }
  | drop {s : State} {u : String} {q : List String}
      (hq : s.queue = u :: q) (hc : dropCond s u = true) :
      Step env s (Label.drop u) { s with queue := q }
  | spawn {s : State} {u : String} {q : List String}
      (hq : s.queue = u :: q) (hc : dropCond s u = false)
      (hn : s.running.length < env.concurrency) :
      Step env s (Label.spawn u)
        { s with queue := q, seen := s.seen.insert u, running := u :: s.running }
  | complete {s : State} {u : String} (h : u ∈ s.running) :
      Step env s (Label.complete u) (completeState env s u)
  | done {s : State} (hq : s.queue = []) (hr : s.running = []) (hres : s.results = []) :
      Step env s Label.done s

inductive Trace (env : Env) : State → List Label → State → Prop where
  | refl (s : State) : Trace env s [] s
  | cons {s : State} {l : Label} {s2 : State} {ls : List Label} {s3 : State}
      (h : Step env s l s2) (t : Trace env s2 ls s3) : Trace env s (l :: ls) s3

def Reachable (env : Env) (s : State) : Prop := ∃ ls, Trace env initState ls s

/-- Executable single step, agreeing with the Step relation. -/
def stepFn (env : Env) (s : State) : Label → Option State
  | Label.deliver r =>
    match s.results with
    | [] => none
    | r2 :: rest =>
      if r2 = r then some { s with results := rest, delivered := s.delivered ++ [r] }
      else none
  | Label.drop u =>
    match s.queue with
    | [] => none
    | u2 :: q =>
      if u2 = u ∧ dropCond s u = true then some { s with queue := q } else none
  | Label.spawn u =>
    match s.queue with
    | [] => none
    | u2 :: q =>
      if u2 = u ∧ dropCond s u = false ∧ s.running.length < env.concurrency then
        some { s with queue := q, seen := s.seen.insert u, running := u :: s.running }
      else none
  | Label.complete u =>
    if u ∈ s.running then some (completeState env s u) else none
  | Label.done =>
    if s.queue = [] ∧ s.running = [] ∧ s.results = [] then some s else none

def runLabels (env : Env) : State → List Label → Option State
  | s, [] => some s
  | s, l :: ls =>
    match stepFn env s l with
    | some s2 => runLabels env s2 ls
    | none => none

/-! ### Variant query extractions, for comparison with query_vars -/

/-- Stated query extraction of the claim: the text after the first
question mark of the URL, when there is one. -/
def afterFirstQmark : List Char → Option (List Char)
  | [] => none
  | c :: rest => if c = '?' then some rest else afterFirstQmark rest

/-- query_vars as the claim words it: claimed extraction, then the same
splitting and decoding loop. -/
def query_vars_claim (url : String) : List (String × String) :=
  match afterFirstQmark url.toList with
  | some q => assembleQuery q
  | none => []

/-- Amended query extraction: the text after the first question mark that
is immediately preceded by a non-question-mark character, found by
scanning with the previous character at hand. -/
def specExtract (prev : Option Char) : List Char → Option (List Char)
  | [] => none
  | c :: rest =>
    if decide (c = '?') && (match prev with | some p => decide (p ≠ '?') | none => false) then
      some rest
    else specExtract (some c) rest

/-- query_vars as amended: amended extraction, then the same splitting and
decoding loop. -/
def query_vars_amended (url : String) : List (String × String) :=
  match specExtract none url.toList with
  | some q => assembleQuery q
  | none => []

/-! ### Observables of the engine -/

/-- Terminal condition of next: frontier empty, no active worker, result
stream empty. -/
def isDone (s : State) : Bool :=
  decide (s.queue = []) && decide (s.running = []) && decide (s.results = [])

/-- How many times a trace spawns a fetch task for the given URL. -/
def spawns (u : String) : List Label → Nat
  | [] => 0
  | Label.spawn v :: ls => (if v = u then 1 else 0) + spawns u ls
  | Label.deliver _ :: ls => spawns u ls
  | Label.drop _ :: ls => spawns u ls
  | Label.complete _ :: ls => spawns u ls
  | Label.done :: ls => spawns u ls

/-- How many steps of a trace are productive, i.e. not the completion
signal. -/
def prodCount : List Label → Nat
  | [] => 0
  | Label.done :: ls => prodCount ls
  | Label.deliver _ :: ls => 1 + prodCount ls
  | Label.spawn _ :: ls => 1 + prodCount ls
  | Label.drop _ :: ls => 1 + prodCount ls
  | Label.complete _ :: ls => 1 + prodCount ls

/-- Number of universe URLs not yet dispatched. -/
def unseenCount (U seen : List String) : Nat :=
  (U.filter (fun v => !decide (v ∈ seen))).length

/-- Termination measure for a crawl over a finite URL universe `U` whose
pages enqueue at most `L` URLs each: every productive step strictly
decreases it. -/
def crawlMeasure (U : List String) (L : Nat) (s : State) : Nat :=
  (L + 2) * unseenCount U s.seen + s.queue.length +
    (L + 2) * s.running.length + s.results.length

/-- The raw links of a fetch outcome. -/
def hrefsOf : Fetched → List String
  | .ok hrefs _ _ _ => hrefs
  | _ => []

/-- The URLs a completed task for `u` appends to the queue. -/
def enqueuesOf (env : Env) (u : String) : List String :=
  (taskEffect (env.fetch u)).enqueues

/-- A finite reachable link graph: a finite universe `U` of URLs holding
the seed and closed under the enqueues of every page, with at most `L`
enqueues per page. -/
def FiniteGraph (env : Env) (U : List String) (L : Nat) : Prop :=
  seedU ∈ U ∧
    ∀ u ∈ U, (∀ v ∈ enqueuesOf env u, v ∈ U) ∧ (enqueuesOf env u).length ≤ L

/-- Modelled from the spec: a URL is an absolute, normalized address when
it carries the scheme of the Marketplace base, that is, it starts with
the https or http scheme. -/
def IsAbsolute (u : String) : Bool :=
  hasPrefixL "https://".toList u.toList || hasPrefixL "http://".toList u.toList

/-! ### Concrete environments, traces and states -/

/-- Environment in which every URL answers 404. -/
def envN : Env := ⟨fun _ => Fetched.notFound, 10⟩

/-- Environment in which every URL answers a non-404 non-200 status. -/
def envF : Env := ⟨fun _ => Fetched.failure, 10⟩

/-- State after dispatching the seed under envN. -/
def sRun : State := ⟨[], [seedU], [], [seedU], [], 0, []⟩

/-- State after the whole (empty) crawl under envN. -/
def sN : State := ⟨[], [], [], [seedU], [], 0, []⟩

def lsN : List Label := [Label.spawn seedU, Label.complete seedU, Label.done]

def uA1 : String := "https://market.android.com/details?id=A&x=1"
def uA2 : String := "https://market.android.com/details?id=A&x=2"
def recA1 : Record := ⟨"A", "1"⟩
def recA2 : Record := ⟨"A", "2"⟩

/-- Two distinct URLs whose pages extract records with the same entity id
"A"; the seed links to both. -/
def envC1 : Env :=
  ⟨fun u =>
    if u = seedU then Fetched.ok ["/details?id=A&x=1", "/details?id=A&x=2"] true none none
    else if u = uA1 then Fetched.ok [] true (some recA1) none
    else if u = uA2 then Fetched.ok [] true (some recA2) none
    else Fetched.notFound, 10⟩

/-- A complete run of envC1 in which both URLs are dispatched before
either task completes. -/
def lsC1 : List Label :=
  [Label.spawn seedU, Label.complete seedU, Label.spawn uA1, Label.spawn uA2,
   Label.complete uA1, Label.complete uA2, Label.deliver recA1, Label.deliver recA2,
   Label.done]

def sC1 : State := ⟨[], [], [], [uA2, uA1, seedU], ["A"], 0, [recA1, recA2]⟩

/-- State of envC1 after the first record has been produced, with the
second URL still queued. -/
def sMidC1 : State := ⟨[uA2], [], [recA1], [uA1, seedU], ["A"], 0, []⟩

def lsMidC1 : List Label :=
  [Label.spawn seedU, Label.complete seedU, Label.spawn uA1, Label.complete uA1]

def uX : String := "https://market.android.com/details?id=x"

/-- The seed page lists the same relative link twice. -/
def envC6 : Env :=
  ⟨fun u =>
    if u = seedU then Fetched.ok ["/details?id=x", "/details?id=x"] true none none
    else Fetched.notFound, 10⟩

def lsC6 : List Label := [Label.spawn seedU, Label.complete seedU]

def sC6 : State := ⟨[uX, uX], [], [], [seedU], [], 0, []⟩

def l1 : String := "https://market.android.com/details?id=l1"
def l2 : String := "https://market.android.com/details?id=l2"
def l3 : String := "https://market.android.com/details?id=l3"
def recA : Record := ⟨"A", ""⟩

/-- The C7 scenario: the seed page is of interest, links to three new
URLs and carries one record with id "A"; the three links answer 404. -/
def envC7 : Env :=
  ⟨fun u =>
    if u = seedU then
      Fetched.ok ["/details?id=l1", "/details?id=l2", "/details?id=l3"] true (some recA) none
    else Fetched.notFound, 10⟩

def lsC7 : List Label :=
  [Label.spawn seedU, Label.complete seedU, Label.deliver recA, Label.spawn l1,
   Label.spawn l2, Label.spawn l3, Label.complete l1, Label.complete l2,
   Label.complete l3, Label.done]

def sC7 : State := ⟨[], [], [], [l3, l2, l1, seedU], ["A"], 0, [recA]⟩

def uP1 : String := "https://market.android.com/details?id=p1"
def recP : Record := ⟨"P", "P"⟩
def recQ : Record := ⟨"Q", ""⟩

/-- The seed page raises during extraction after its first enqueue, so
its own record "P" is lost; the linked page extracts record "Q". -/
def envC8 : Env :=
  ⟨fun u =>
    if u = seedU then Fetched.ok ["/details?id=p1"] true (some recP) (some 1)
    else if u = uP1 then Fetched.ok [] true (some recQ) none
    else Fetched.notFound, 10⟩

def lsC8 : List Label :=
  [Label.spawn seedU, Label.complete seedU, Label.spawn uP1, Label.complete uP1,
   Label.deliver recQ, Label.done]

def sC8 : State := ⟨[], [], [], [uP1, seedU], ["Q"], 0, [recQ]⟩

/-- The seed page carries a filter-passing link with no leading slash. -/
def envC9 : Env :=
  ⟨fun u =>
    if u = seedU then Fetched.ok ["a/details?id=x"] true none none
    else Fetched.notFound, 10⟩

def lsC9 : List Label := [Label.spawn seedU, Label.complete seedU]

def sC9 : State := ⟨["a/details?id=x"], [], [], [seedU], [], 0, []⟩

/-- The seed page carries one base-relative link. -/
def envC9w : Env :=
  ⟨fun u =>
    if u = seedU then Fetched.ok ["/details?id=z"] true none none
    else Fetched.notFound, 10⟩

def sC9w : State :=
  ⟨["https://market.android.com/details?id=z"], [], [], [seedU], [], 0, []⟩

/-- A terminal state with history, for the idempotence claim. -/
def sDone : State := ⟨[], [], [], [seedU], ["D"], 2, [⟨"D", "d"⟩]⟩

/-! ### Generic trace machinery -/

theorem trace_inv {env : Env} (P : State → Prop)
    (hstep : ∀ s l s2, Step env s l s2 → P s → P s2) :
    ∀ {s ls s2}, Trace env s ls s2 → P s → P s2 := by
  intro s ls s2 ht
  induction ht with
  | refl s => exact id
  | cons h t ih => exact fun hp => ih (hstep _ _ _ h hp)

theorem stepFn_sound {env : Env} {s : State} {l : Label} {s2 : State}
    (h : stepFn env s l = some s2) : Step env s l s2 := by
  cases l with
  | deliver r =>
    simp only [stepFn] at h
    split at h
    · exact absurd h (by simp)
    · rename_i r2 rest hres
      split at h
      · rename_i hr
        injection h with h2
        subst h2; subst hr
        exact Step.deliver hres
      · exact absurd h (by simp)
  | drop u =>
    simp only [stepFn] at h
    split at h
    · exact absurd h (by simp)
    · rename_i u2 q hq
      split at h
      · rename_i hc
        injection h with h2
        subst h2
        exact Step.drop (hc.1 ▸ hq) hc.2
      · exact absurd h (by simp)
  | spawn u =>
    simp only [stepFn] at h
    split at h
    · exact absurd h (by simp)
    · rename_i u2 q hq
      split at h
      · rename_i hc
        injection h with h2
        subst h2
        exact Step.spawn (hc.1 ▸ hq) hc.2.1 hc.2.2
      · exact absurd h (by simp)
  | complete u =>
    simp only [stepFn] at h
    split at h
    · rename_i hm
      injection h with h2
      subst h2
      exact Step.complete hm
    · exact absurd h (by simp)
  | done =>
    simp only [stepFn] at h
    split at h
    · rename_i hc
      injection h with h2
      subst h2
      exact Step.done hc.1 hc.2.1 hc.2.2
    · exact absurd h (by simp)

theorem runLabels_sound {env : Env} :
    ∀ {s : State} {ls : List Label} {s2 : State},
      runLabels env s ls = some s2 → Trace env s ls s2 := by
  intro s ls
  induction ls generalizing s with
  | nil =>
    intro s2 h
    unfold runLabels at h
    injection h with h2
    subst h2
    exact Trace.refl s
  | cons l ls ih =>
    intro s2 h
    unfold runLabels at h
    cases hstep : stepFn env s l with
    | none => rw [hstep] at h; exact absurd h (by simp)
    | some smid =>
      rw [hstep] at h
      exact Trace.cons (stepFn_sound hstep) (ih h)

/-! ### Monotonicity of the two dedup sets -/

theorem step_seen_mono {env : Env} {s : State} {l : Label} {s2 : State}
    (h : Step env s l s2) : ∀ x, x ∈ s.seen → x ∈ s2.seen := by
  cases h with
  | deliver h => exact fun x hx => hx
  | drop hq hc => exact fun x hx => hx
  | spawn hq hc hn => exact fun x hx => List.mem_insert_of_mem hx
  | complete h => exact fun x hx => hx
  | done hq hr hres => exact fun x hx => hx

theorem mem_idsAfter {ids : List String} {x : String} (app : Option Record)
    (hx : x ∈ ids) : x ∈ idsAfter ids app := by
  cases app with
  | some r => exact List.mem_insert_of_mem hx
  | none => exact hx

theorem step_ids_mono {env : Env} {s : State} {l : Label} {s2 : State}
    (h : Step env s l s2) : ∀ x, x ∈ s.seen_app_ids → x ∈ s2.seen_app_ids := by
  cases h with
  | deliver h => exact fun x hx => hx
  | drop hq hc => exact fun x hx => hx
  | spawn hq hc hn => exact fun x hx => hx
  | complete h => exact fun x hx => mem_idsAfter _ hx
  | done hq hr hres => exact fun x hx => hx

/-- A URL already in the dispatched set is never spawned: the dequeue
check of next drops it instead. -/
theorem no_spawn_of_seen {env : Env} {s : State} {u : String} {s2 : State}
    (hu : u ∈ s.seen) : ¬ Step env s (Label.spawn u) s2 := by
  intro h
  cases h with
  | spawn hq hc hn => simp [dropCond, hu] at hc

/-- A URL whose id parameter is already among the seen entity ids is
never spawned either. -/
theorem no_spawn_of_seen_id {env : Env} {s : State} {u : String} {i : String} {s2 : State}
    (hid : get_id u = some i) (hmem : i ∈ s.seen_app_ids) :
    ¬ Step env s (Label.spawn u) s2 := by
  intro h
  cases h with
  | spawn hq hc hn => simp [dropCond, hid, hmem] at hc

/-! ### Spawn counting -/

theorem trace_spawns_zero {env : Env} :
    ∀ {ls : List Label} {s s2 : State}, Trace env s ls s2 →
      ∀ {u : String}, u ∈ s.seen → spawns u ls = 0 := by
  intro ls
  induction ls with
  | nil => intro s s2 ht u hu; rfl
  | cons l ls ih =>
    intro s s2 ht u hu
    cases ht with
    | cons h t =>
      have hu2 := step_seen_mono h u hu
      have h0 := ih t hu2
      cases l with
      | spawn v =>
        by_cases hv : v = u
        · subst hv; exact absurd h (no_spawn_of_seen hu)
        · simp [spawns, hv, h0]
      | deliver r => simpa [spawns] using h0
      | drop w => simpa [spawns] using h0
      | complete w => simpa [spawns] using h0
      | done => simpa [spawns] using h0

theorem trace_spawns_le_one {env : Env} :
    ∀ {ls : List Label} {s s2 : State}, Trace env s ls s2 →
      ∀ u : String, spawns u ls ≤ 1 := by
  intro ls
  induction ls with
  | nil => intro s s2 ht u; exact Nat.zero_le 1
  | cons l ls ih =>
    intro s s2 ht u
    cases ht with
    | cons h t =>
      cases l with
      | spawn v =>
        by_cases hv : v = u
        · subst hv
          cases h with
          | spawn hq hc hn =>
            have hm : v ∈ List.insert v s.seen := List.mem_insert_self v s.seen
            have h0 := trace_spawns_zero t hm
            simp [spawns, h0]
        · simp only [spawns, hv, if_neg hv]
          simpa using ih t u
      | deliver r => simpa [spawns] using ih t u
      | drop w => simpa [spawns] using ih t u
      | complete w => simpa [spawns] using ih t u
      | done => simpa [spawns] using ih t u

/-! ### The concurrency bound is invariant -/

theorem step_running_bound {env : Env} {s : State} {l : Label} {s2 : State}
    (h : Step env s l s2) (hb : s.running.length ≤ env.concurrency) :
    s2.running.length ≤ env.concurrency := by
  cases h with
  | deliver h => exact hb
  | drop hq hc => exact hb
  | spawn hq hc hn => simpa using hn
  | complete h =>
    rename_i u
    have hsub : (s.running.erase u).length ≤ s.running.length :=
      (List.erase_sublist u s.running).length_le
    exact Nat.le_trans hsub hb
  | done hq hr hres => exact hb

/-! ### Terminal states -/

theorem isDone_fields {s : State} (hd : isDone s = true) :
    s.queue = [] ∧ s.running = [] ∧ s.results = [] := by
  unfold isDone at hd
  simp only [Bool.and_eq_true, decide_eq_true_eq] at hd
  exact ⟨hd.1.1, hd.1.2, hd.2⟩

theorem done_step_inv {env : Env} {s : State} {l : Label} {s2 : State}
    (hd : isDone s = true) (hstep : Step env s l s2) : l = Label.done ∧ s2 = s := by
  obtain ⟨hq, hr, hres⟩ := isDone_fields hd
  cases hstep with
  | deliver h => rw [hres] at h; exact absurd h (by simp)
  | drop hq2 hc => rw [hq] at hq2; exact absurd hq2 (by simp)
  | spawn hq2 hc hn => rw [hq] at hq2; exact absurd hq2 (by simp)
  | complete h => rw [hr] at h; exact absurd h (by simp)
  | done hq2 hr2 hres2 => exact ⟨rfl, rfl⟩

theorem done_trace {env : Env} :
    ∀ {s : State} {ls : List Label} {s2 : State}, Trace env s ls s2 →
      isDone s = true → s2 = s ∧ ∀ l ∈ ls, l = Label.done := by
  intro s ls s2 ht
  induction ht with
  | refl s => exact fun _ => ⟨rfl, by simp⟩
  | cons h t ih =>
    intro hd
    obtain ⟨hl, hs⟩ := done_step_inv hd h
    subst hs
    obtain ⟨h1, h2⟩ := ih hd
    refine ⟨h1, ?_⟩
    intro l2 hl2
    rcases List.mem_cons.mp hl2 with h3 | h3
    · rw [h3, hl]
    · exact h2 l2 h3

/-! ### Delivered entity ids are always recorded -/

theorem step_uids_recorded {env : Env} {s : State} {l : Label} {s2 : State}
    (h : Step env s l s2)
    (hP : ∀ r : Record, (r ∈ s.results ∨ r ∈ s.delivered) → r.uid ∈ s.seen_app_ids) :
    ∀ r : Record, (r ∈ s2.results ∨ r ∈ s2.delivered) → r.uid ∈ s2.seen_app_ids := by
  cases h with
  | deliver hres =>
    rename_i r0 rest
    intro r hr
    rcases hr with hr | hr
    · exact hP r (Or.inl (by rw [hres]; exact List.mem_cons_of_mem r0 hr))
    · rcases List.mem_append.mp hr with hr2 | hr2
      · exact hP r (Or.inr hr2)
      · have hr3 : r = r0 := by simpa using hr2
        subst hr3
        exact hP r (Or.inl (by rw [hres]; exact List.mem_cons_self _ _))
  | drop hq hc => exact hP
  | spawn hq hc hn => exact hP
  | complete hm =>
    rename_i u
    intro r hr
    show r.uid ∈ idsAfter s.seen_app_ids (taskEffect (env.fetch u)).app
    rcases hr with hr | hr
    · have hr2 : r ∈ resultsAfter s.results (taskEffect (env.fetch u)).app := hr
      cases happ : (taskEffect (env.fetch u)).app with
      | none =>
        rw [happ] at hr2
        exact hP r (Or.inl hr2)
      | some r0 =>
        rw [happ] at hr2
        rcases List.mem_append.mp hr2 with hr3 | hr3
        · exact List.mem_insert_of_mem (hP r (Or.inl hr3))
        · have hr4 : r = r0 := by simpa using hr3
          subst hr4
          exact List.mem_insert_self _ _
    · exact mem_idsAfter _ (hP r (Or.inr hr))
  | done hq hr2 hres => exact hP

theorem reachable_uids_recorded {env : Env} {s : State} (h : Reachable env s) :
    ∀ r : Record, (r ∈ s.results ∨ r ∈ s.delivered) → r.uid ∈ s.seen_app_ids := by
  obtain ⟨ls, tr⟩ := h
  refine trace_inv
    (P := fun t => ∀ r : Record, (r ∈ t.results ∨ r ∈ t.delivered) → r.uid ∈ t.seen_app_ids)
    (fun s l s2 hs hp => step_uids_recorded hs hp) tr ?_
  intro r hr
  rcases hr with hr | hr <;> simp [initState] at hr

/-! ### Enqueueing at completion is unconditional -/

theorem complete_queue_append {env : Env} {s : State} {u : String} {s2 : State}
    (h : Step env s (Label.complete u) s2) :
    s2.queue = s.queue ++ (taskEffect (env.fetch u)).enqueues := by
  cases h with
  | complete hm => rfl

/-! ### Absolute URLs -/

theorem toList_append (a b : String) : (a ++ b).toList = a.toList ++ b.toList := by
  cases a; cases b; rfl

theorem hasPrefixL_append {p s : List Char} (h : hasPrefixL p s = true) (t : List Char) :
    hasPrefixL p (s ++ t) = true := by
  induction p generalizing s with
  | nil => rfl
  | cons c ps ih =>
    cases s with
    | nil => simp [hasPrefixL] at h
    | cons d ds =>
      simp only [hasPrefixL, Bool.and_eq_true, decide_eq_true_eq, List.cons_append] at h ⊢
      exact ⟨h.1, ih h.2⟩

theorem isAbsolute_base_append (l : String) :
    IsAbsolute ("https://market.android.com" ++ l) = true := by
  unfold IsAbsolute
  have h : hasPrefixL "https://".toList "https://market.android.com".toList = true := by decide
  rw [toList_append, hasPrefixL_append h]
  rfl

theorem isAbsolute_absolute_url {lnk : String}
    (h : strStartsWith lnk "/" = true ∨ IsAbsolute lnk = true) :
    IsAbsolute (absolute_url lnk) = true := by
  unfold absolute_url
  by_cases hs : strStartsWith lnk "/" = true
  · rw [if_pos hs]
    exact isAbsolute_base_append lnk
  · rw [if_neg hs]
    rcases h with h | h
    · exact absurd h hs
    · exact h

theorem mem_enqueueList_absolute {hrefs : List String} {v : String}
    (hv : v ∈ enqueueList hrefs)
    (h : ∀ lnk ∈ hrefs, strStartsWith lnk "/" = true ∨ IsAbsolute lnk = true) :
    IsAbsolute v = true := by
  unfold enqueueList at hv
  obtain ⟨lnk, hlnk, rfl⟩ := List.mem_map.mp hv
  exact isAbsolute_absolute_url (h lnk (List.mem_of_mem_filter (List.mem_of_mem_filter hlnk)))

theorem mem_taskEffect_enqueues {f : Fetched} {v : String}
    (hv : v ∈ (taskEffect f).enqueues) : v ∈ enqueueList (hrefsOf f) := by
  cases f with
  | notFound => simp [taskEffect] at hv
  | failure => simp [taskEffect] at hv
  | ok hrefs valid app raiseAt =>
    cases valid with
    | false => simp [taskEffect] at hv
    | true =>
      cases raiseAt with
      | some k =>
        have hv2 : v ∈ (enqueueList hrefs).take k := by simpa [taskEffect] using hv
        exact (List.take_sublist k _).subset hv2
      | none => simpa [taskEffect, hrefsOf] using hv

theorem step_queue_absolute {env : Env}
    (henv : ∀ u lnk, lnk ∈ hrefsOf (env.fetch u) →
        strStartsWith lnk "/" = true ∨ IsAbsolute lnk = true)
    {s : State} {l : Label} {s2 : State} (h : Step env s l s2)
    (hP : ∀ v ∈ s.queue, IsAbsolute v = true) :
    ∀ v ∈ s2.queue, IsAbsolute v = true := by
  cases h with
  | deliver h => exact hP
  | drop hq hc =>
    intro v hv
    exact hP v (by rw [hq]; exact List.mem_cons_of_mem _ hv)
  | spawn hq hc hn =>
    intro v hv
    exact hP v (by rw [hq]; exact List.mem_cons_of_mem _ hv)
  | complete hm =>
    rename_i u
    intro v hv
    have hv2 : v ∈ s.queue ++ (taskEffect (env.fetch u)).enqueues := hv
    rcases List.mem_append.mp hv2 with hv3 | hv3
    · exact hP v hv3
    · exact mem_enqueueList_absolute (mem_taskEffect_enqueues hv3) (fun lnk hl => henv u lnk hl)
  | done hq hr hres => exact hP

/-! ### Termination measure -/

theorem filter_length_imp {p q : String → Bool} (h : ∀ x, p x = true → q x = true) :
    ∀ U : List String, (U.filter p).length ≤ (U.filter q).length := by
  intro U
  induction U with
  | nil => simp
  | cons v V ih =>
    by_cases hv : p v = true
    · have hq := h v hv
      simp only [List.filter_cons, hv, hq, if_true, List.length_cons]
      exact Nat.succ_le_succ ih
    · have hv2 : p v = false := by revert hv; cases p v <;> simp
      simp only [List.filter_cons, hv2]
      cases hq2 : q v with
      | true =>
        simp only [if_true, if_false, Bool.false_eq_true, List.length_cons]
        exact Nat.le_trans ih (Nat.le_succ _)
      | false => simp only [Bool.false_eq_true, if_false]; exact ih

theorem unseen_mono {U seen : List String} {u : String} :
    unseenCount U (u :: seen) ≤ unseenCount U seen := by
  unfold unseenCount
  apply filter_length_imp
  intro x hx
  simp only [Bool.not_eq_eq_eq_not, Bool.not_true, decide_eq_false_iff_not] at hx ⊢
  exact fun hmem => hx (List.mem_cons_of_mem u hmem)

theorem unseenCount_cons (V : List String) (seen : List String) (v : String) :
    unseenCount (v :: V) seen = (if v ∈ seen then 0 else 1) + unseenCount V seen := by
  unfold unseenCount
  by_cases hm : v ∈ seen
  · simp [List.filter_cons, hm]
  · simp [List.filter_cons, hm]
    omega

theorem unseen_insert_lt {U : List String} {seen : List String} {u : String}
    (hU : u ∈ U) (hs : u ∉ seen) :
    unseenCount U (u :: seen) + 1 ≤ unseenCount U seen := by
  induction U with
  | nil => simp at hU
  | cons v V ih =>
    rw [unseenCount_cons, unseenCount_cons]
    by_cases hvu : v = u
    · rw [if_pos (by rw [hvu]; exact List.mem_cons_self _ _), if_neg (by rw [hvu]; exact hs)]
      have hmono := @unseen_mono V seen u
      omega
    · rcases List.mem_cons.mp hU with hv | hv
      · exact absurd hv.symm hvu
      · have heq : (v ∈ u :: seen) ↔ (v ∈ seen) := by
          constructor
          · intro h3
            rcases List.mem_cons.mp h3 with h4 | h4
            · exact absurd h4 hvu
            · exact h4
          · exact List.mem_cons_of_mem u
        by_cases hm : v ∈ seen
        · rw [if_pos (heq.mpr hm), if_pos hm]
          simpa using ih hv
        · rw [if_neg (fun h3 => hm (heq.mp h3)), if_neg hm]
          have h3 := ih hv
          omega

theorem done_self {env : Env} {s s2 : State} (h : Step env s Label.done s2) : s2 = s := by
  cases h
  rfl

theorem prodCount_cons_ne {l : Label} {ls : List Label} (h : l ≠ Label.done) :
    prodCount (l :: ls) = 1 + prodCount ls := by
  cases l with
  | done => exact absurd rfl h
  | deliver r => rfl
  | spawn u => rfl
  | drop u => rfl
  | complete u => rfl

theorem step_measure {env : Env} {U : List String} {L : Nat} {s : State} {l : Label}
    {s2 : State} (hstep : Step env s l s2) (hne : l ≠ Label.done)
    (hU : ∀ v ∈ s.queue, v ∈ U)
    (hR : ∀ v ∈ s.running, v ∈ U)
    (hclo : ∀ u ∈ U, (enqueuesOf env u).length ≤ L) :
    crawlMeasure U L s2 + 1 ≤ crawlMeasure U L s := by
  cases hstep with
  | deliver hres =>
    unfold crawlMeasure
    rw [hres]
    simp only [List.length_cons]
    linarith
  | drop hq hc =>
    unfold crawlMeasure
    rw [hq]
    simp only [List.length_cons]
    linarith
  | spawn hq hc hn =>
    rename_i u q
    have hu : u ∉ s.seen := by
      intro hm
      simp [dropCond, hm] at hc
    have huU : u ∈ U := hU u (by rw [hq]; exact List.mem_cons_self _ _)
    have hins : List.insert u s.seen = u :: s.seen := List.insert_of_not_mem hu
    have hlt := unseen_insert_lt huU hu
    unfold crawlMeasure
    rw [hq]
    simp only [hins, List.length_cons]
    have hk := Nat.mul_le_mul_left (L + 2) hlt
    rw [Nat.mul_succ] at hk
    rw [Nat.mul_succ]
    linarith
  | complete hm =>
    rename_i u
    have hrl : s.running.length = (s.running.erase u).length + 1 := by
      have h1 := List.length_erase_of_mem hm
      have h2 := List.length_pos_of_mem hm
      omega
    have helen : (taskEffect (env.fetch u)).enqueues.length ≤ L := hclo u (hR u hm)
    unfold crawlMeasure
    simp only [completeState, List.length_append]
    rw [hrl, Nat.mul_succ]
    cases happ : (taskEffect (env.fetch u)).app with
    | some r =>
      simp only [resultsAfter, List.length_append, List.length_cons, List.length_nil]
      linarith
    | none =>
      simp only [resultsAfter]
      linarith
  | done hq hr hres => exact absurd rfl hne

theorem step_inU {env : Env} {U : List String}
    (hclo : ∀ u ∈ U, ∀ v ∈ enqueuesOf env u, v ∈ U)
    {s : State} {l : Label} {s2 : State} (hstep : Step env s l s2)
    (hU : ∀ v ∈ s.queue, v ∈ U) (hR : ∀ v ∈ s.running, v ∈ U) :
    (∀ v ∈ s2.queue, v ∈ U) ∧ (∀ v ∈ s2.running, v ∈ U) := by
  cases hstep with
  | deliver h => exact ⟨hU, hR⟩
  | drop hq hc =>
    refine ⟨?_, hR⟩
    intro v hv
    exact hU v (by rw [hq]; exact List.mem_cons_of_mem _ hv)
  | spawn hq hc hn =>
    constructor
    · intro v hv
      exact hU v (by rw [hq]; exact List.mem_cons_of_mem _ hv)
    · intro v hv
      rcases List.mem_cons.mp hv with hv2 | hv2
      · subst hv2
        exact hU v (by rw [hq]; exact List.mem_cons_self _ _)
      · exact hR v hv2
  | complete hm =>
    rename_i u
    constructor
    · intro v hv
      rcases List.mem_append.mp hv with hv2 | hv2
      · exact hU v hv2
      · exact hclo u (hR u hm) v hv2
    · intro v hv
      exact hR v (List.mem_of_mem_erase hv)
  | done hq hr hres => exact ⟨hU, hR⟩

theorem trace_measure {env : Env} {U : List String} {L : Nat}
    (hclo1 : ∀ u ∈ U, ∀ v ∈ enqueuesOf env u, v ∈ U)
    (hclo2 : ∀ u ∈ U, (enqueuesOf env u).length ≤ L) :
    ∀ {ls : List Label} {s s2 : State}, Trace env s ls s2 →
      (∀ v ∈ s.queue, v ∈ U) → (∀ v ∈ s.running, v ∈ U) →
      prodCount ls + crawlMeasure U L s2 ≤ crawlMeasure U L s := by
  intro ls
  induction ls with
  | nil =>
    intro s s2 ht hU hR
    cases ht with
    | refl => simp [prodCount]
  | cons l ls ih =>
    intro s s2 ht hU hR
    cases ht with
    | cons h t =>
      by_cases hl : l = Label.done
      · subst hl
        rw [done_self h] at t
        simpa only [prodCount] using ih t hU hR
      · have hdec := step_measure h hl hU hR hclo2
        have hinv := step_inU hclo1 h hU hR
        have hrec := ih t hinv.1 hinv.2
        rw [prodCount_cons_ne hl]
        linarith

theorem stuck_done {env : Env} (hN : 0 < env.concurrency) {s : State}
    (h : ∀ l s2, Step env s l s2 → l = Label.done) : Step env s Label.done s := by
  have hres : s.results = [] := by
    cases hres2 : s.results with
    | nil => rfl
    | cons r rest =>
      have h2 := h (Label.deliver r) _ (Step.deliver hres2)
      exact absurd h2 (by simp)
  have hrun : s.running = [] := by
    cases hrun2 : s.running with
    | nil => rfl
    | cons v rest =>
      have hv : v ∈ s.running := by rw [hrun2]; exact List.mem_cons_self _ _
      have h2 := h (Label.complete v) _ (Step.complete hv)
      exact absurd h2 (by simp)
  have hq : s.queue = [] := by
    cases hq2 : s.queue with
    | nil => rfl
    | cons u q =>
      by_cases hdc : dropCond s u = true
      · have h2 := h (Label.drop u) _ (Step.drop hq2 hdc)
        exact absurd h2 (by simp)
      · have hdc2 : dropCond s u = false := by
          revert hdc
          cases dropCond s u <;> simp
        have hlen : s.running.length < env.concurrency := by
          rw [hrun]
          simpa using hN
        have h2 := h (Label.spawn u) _ (Step.spawn hq2 hdc2 hlen)
        exact absurd h2 (by simp)
  exact Step.done hq hrun hres

/-! ### Equivalences between the query extractions -/

theorem findQuery_cons (a : Char) (cs : List Char) :
    findQuery (a :: cs) = specExtract (some a) cs := by
  induction cs generalizing a with
  | nil => rfl
  | cons b rest ih =>
    show findQuery (a :: b :: rest) = specExtract (some a) (b :: rest)
    simp only [findQuery, specExtract]
    by_cases ha : a = '?' <;> by_cases hb : b = '?' <;> simp [ha, hb, ih]

theorem findQuery_eq_specExtract (cs : List Char) : findQuery cs = specExtract none cs := by
  cases cs with
  | nil => rfl
  | cons c rest =>
    rw [findQuery_cons]
    simp [specExtract, Bool.and_false]

theorem query_vars_eq_amended (url : String) : query_vars url = query_vars_amended url := by
  unfold query_vars query_vars_amended
  rw [findQuery_eq_specExtract]

theorem specExtract_none_of_no_qmark :
    ∀ {cs : List Char}, afterFirstQmark cs = none → ∀ prev, specExtract prev cs = none := by
  intro cs
  induction cs with
  | nil => intro h prev; rfl
  | cons c rest ih =>
    intro h prev
    have hc : ¬ c = '?' := by
      intro hc
      subst hc
      simp [afterFirstQmark] at h
    have h2 : afterFirstQmark rest = none := by
      simpa [afterFirstQmark, hc] using h
    show specExtract prev (c :: rest) = none
    simp only [specExtract]
    rw [show decide (c = '?') = false by simp [hc]]
    simp only [Bool.false_and, Bool.false_eq_true, if_false]
    exact ih h2 (some c)

theorem query_vars_empty_of_no_qmark {url : String}
    (h : afterFirstQmark url.toList = none) :
    query_vars url = [] ∧ get_id url = none := by
  have h2 : query_vars url = [] := by
    unfold query_vars
    rw [findQuery_eq_specExtract, specExtract_none_of_no_qmark h none]
  exact ⟨h2, by unfold get_id; rw [h2]; rfl⟩

/-! ### The claims -/

/-- C1: counterexample.  A complete run of the engine in which two
different URLs both extract records with entity id "A" and both are
dispatched before either fetch completes: both records are delivered, so
the full result stream repeats an EntityId. -/
theorem c1_dedup_counterexample :
    Trace envC1 initState lsC1 sC1 ∧
      sC1.delivered = [recA1, recA2] ∧ recA1.uid = recA2.uid ∧ recA1 ≠ recA2 :=
  ⟨runLabels_sound (by decide), by decide, rfl, by decide⟩

/-- C1 (amended): across every run, the entity id of every record in the
result stream or already delivered is recorded in seen_app_ids, and a URL
whose id parameter is already recorded is never spawned; so a URL
dequeued after a record with its id has completed is suppressed, but two
URLs dispatched before either task completes may both deliver records
with the same EntityId. -/
theorem c1_dedup_amended :
    (∀ env s, Reachable env s →
        ∀ r : Record, (r ∈ s.results ∨ r ∈ s.delivered) → r.uid ∈ s.seen_app_ids) ∧
      (∀ env s u i s2, get_id u = some i → i ∈ s.seen_app_ids →
        ¬ Step env s (Label.spawn u) s2) :=
  ⟨fun env s h => reachable_uids_recorded h,
   fun env s u i s2 hid hmem => no_spawn_of_seen_id hid hmem⟩

/-- C1 witness: the amended statement applied in a concrete reachable
state of envC1 holding one undelivered record. -/
theorem c1_dedup_amended_witness :
    get_id uA2 = some "A" ∧ "A" ∈ sMidC1.seen_app_ids ∧
      recA1.uid ∈ sMidC1.seen_app_ids ∧ ¬ Step envC1 sMidC1 (Label.spawn uA2) initState :=
  ⟨by decide, by decide,
   c1_dedup_amended.1 envC1 sMidC1 ⟨lsMidC1, runLabels_sound (by decide)⟩ recA1
     (Or.inl (by decide)),
   c1_dedup_amended.2 envC1 sMidC1 uA2 "A" initState (by decide) (by decide)⟩

/-- C2: in every run from the initial state, each URL is spawned at most
once; the dispatched set only grows along every step, and a URL already
in it is never spawned again. -/
theorem c2_dispatch_once (env : Env) (u : String) (ls : List Label) (s2 : State)
    (h : Trace env initState ls s2) :
    spawns u ls ≤ 1 ∧
      (∀ s3 l s4, Step env s3 l s4 → ∀ x ∈ s3.seen, x ∈ s4.seen) ∧
      (∀ s3 s4 : State, ∀ v, v ∈ s3.seen → ¬ Step env s3 (Label.spawn v) s4) :=
  ⟨trace_spawns_le_one h u,
   fun s3 l s4 hs x hx => step_seen_mono hs x hx,
   fun s3 s4 v hv => no_spawn_of_seen hv⟩

/-- C2 witness: the dispatch-once bound on a concrete complete run. -/
theorem c2_dispatch_once_witness :
    Trace envN initState lsN sN ∧ spawns seedU lsN ≤ 1 :=
  have ht : Trace envN initState lsN sN := runLabels_sound (by decide)
  ⟨ht, (c2_dispatch_once envN seedU lsN sN ht).1⟩

/-- C3: in every reachable state, the number of concurrently active fetch
tasks is at most the configured concurrency bound (source default 10). -/
theorem c3_concurrency_bound (env : Env) (s : State) (h : Reachable env s) :
    s.running.length ≤ env.concurrency := by
  obtain ⟨ls, tr⟩ := h
  exact trace_inv (P := fun t => t.running.length ≤ env.concurrency)
    (fun s3 l s4 hs hb => step_running_bound hs hb) tr (by simp [initState])

/-- C3 witness: the bound in a concrete reachable state holding one
active task. -/
theorem c3_concurrency_bound_witness :
    Reachable envN sRun ∧ sRun.running.length ≤ envN.concurrency :=
  have hr : Reachable envN sRun := ⟨[Label.spawn seedU], runLabels_sound (by decide)⟩
  ⟨hr, c3_concurrency_bound envN sRun hr⟩

/-- C4: over a finite reachable link graph (a finite universe U holding
the seed, closed under the enqueues of every page, with at most L
enqueues per page) and a positive concurrency bound, every run from the
initial state performs at most crawlMeasure U L initState productive
steps, and any state from which no step other than the completion signal
is possible does admit the completion signal, leaving the state
unchanged: the crawl neither loops nor blocks forever. -/
theorem c4_termination (env : Env) (U : List String) (L : Nat)
    (hfin : FiniteGraph env U L) (hN : 0 < env.concurrency) :
    (∀ ls s2, Trace env initState ls s2 → prodCount ls ≤ crawlMeasure U L initState) ∧
      (∀ s2 : State, (∀ l s3, Step env s2 l s3 → l = Label.done) →
        Step env s2 Label.done s2) := by
  obtain ⟨hseed, hclo⟩ := hfin
  constructor
  · intro ls s2 ht
    have hU : ∀ v ∈ initState.queue, v ∈ U := by
      intro v hv
      have h2 : v = seedU := by simpa [initState] using hv
      rw [h2]
      exact hseed
    have hR : ∀ v ∈ initState.running, v ∈ U := by
      intro v hv
      simp [initState] at hv
    have hb := trace_measure (fun u hu => (hclo u hu).1) (fun u hu => (hclo u hu).2) ht hU hR
    omega
  · intro s2 h
    exact stuck_done hN h

/-- C4 witness: the bound on a concrete complete run over the
one-element universe. -/
theorem c4_termination_witness :
    FiniteGraph envN [seedU] 0 ∧ 0 < envN.concurrency ∧
      prodCount lsN ≤ crawlMeasure [seedU] 0 initState :=
  have hfin : FiniteGraph envN [seedU] 0 := ⟨by decide, by decide⟩
  ⟨hfin, by decide,
   (c4_termination envN [seedU] 0 hfin (by decide)).1 lsN sN (runLabels_sound (by decide))⟩

/-- C5: from any terminal state (frontier, pool and result stream all
empty) every trace leaves the state unchanged, consists only of
completion signals, and the completion signal is again available at its
end: the done state is terminal and idempotent. -/
theorem c5_done_idempotent (env : Env) (s : State) (hd : isDone s = true) :
    ∀ ls s2, Trace env s ls s2 →
      s2 = s ∧ (∀ l ∈ ls, l = Label.done) ∧ Step env s2 Label.done s2 := by
  intro ls s2 ht
  obtain ⟨h1, h2⟩ := done_trace ht hd
  refine ⟨h1, h2, ?_⟩
  obtain ⟨hq, hr, hres⟩ := isDone_fields hd
  rw [h1]
  exact Step.done hq hr hres

/-- C5 witness: idempotence at a concrete terminal state with history. -/
theorem c5_done_idempotent_witness :
    isDone sDone = true ∧ Step envN sDone Label.done sDone :=
  ⟨by decide,
   (c5_done_idempotent envN sDone (by decide) [Label.done] sDone
     (runLabels_sound (by decide))).2.2⟩

/-- C6: counterexample.  enqueue performs no membership check: after the
seed page, whose markup lists the same link twice, is fetched, the same
URL occupies two slots of the frontier at the same instant. -/
theorem c6_enqueue_counterexample :
    Trace envC6 initState lsC6 sC6 ∧ sC6.queue = [uX, uX] ∧ sC6.queue.count uX = 2 :=
  ⟨runLabels_sound (by decide), by decide, by decide⟩

/-- C6 (amended): a completing task appends its discovered links to the
frontier unconditionally, whatever the frontier and the dispatched set
already hold; duplicate suppression happens only at dequeue time, where a
URL already in the dispatched set is dropped instead of spawned. -/
theorem c6_enqueue_amended :
    (∀ env s u s2, Step env s (Label.complete u) s2 →
        s2.queue = s.queue ++ (taskEffect (env.fetch u)).enqueues) ∧
      (∀ env s u s2, u ∈ s.seen → ¬ Step env s (Label.spawn u) s2) :=
  ⟨fun env s u s2 h => complete_queue_append h,
   fun env s u s2 hu => no_spawn_of_seen hu⟩

/-- C6 witness: the amended statement at a concrete completing step and a
concrete already-dispatched URL. -/
theorem c6_enqueue_amended_witness :
    (completeState envC6 sRun seedU).queue
        = sRun.queue ++ (taskEffect (envC6.fetch seedU)).enqueues ∧
      ¬ Step envC6 sRun (Label.spawn seedU) initState :=
  ⟨c6_enqueue_amended.1 envC6 sRun seedU (completeState envC6 sRun seedU)
     (Step.complete (by decide)),
   c6_enqueue_amended.2 envC6 sRun seedU initState (by decide)⟩

/-- C7: counterexample.  In the stated scenario (seed page of interest,
three new links, one record "A", all three links answering 404) a
complete run delivers the record and signals completion with the failure
counter still 0, not 3: 404 outcomes are never counted. -/
theorem c7_scenario_counterexample :
    Trace envC7 initState lsC7 sC7 ∧ isDone sC7 = true ∧ sC7.failed = 0 ∧
      sC7.failed ≠ 3 :=
  ⟨runLabels_sound (by decide), by decide, by decide, by decide⟩

/-- C7 (amended): in the scenario exactly one record ("A") is delivered
and completion is signaled, but the failure counter ends unchanged at 0:
a 404 answer is silently discarded without counting, and only a non-404
non-200 answer increments the counter by one. -/
theorem c7_scenario_amended :
    (Trace envC7 initState lsC7 sC7 ∧ sC7.delivered = [recA] ∧ recA.uid = "A" ∧
        isDone sC7 = true ∧ sC7.failed = 0) ∧
      (∀ env s u, env.fetch u = Fetched.notFound →
        (completeState env s u).failed = s.failed) ∧
      (∀ env s u, env.fetch u = Fetched.failure →
        (completeState env s u).failed = s.failed + 1) := by
  refine ⟨⟨runLabels_sound (by decide), by decide, rfl, by decide, by decide⟩, ?_, ?_⟩
  · intro env s u hf
    simp [completeState, taskEffect, hf]
  · intro env s u hf
    simp [completeState, taskEffect, hf]

/-- C7 witness: the counter is untouched by a concrete 404 completion and
incremented by a concrete non-404 failure completion. -/
theorem c7_scenario_amended_witness :
    envN.fetch seedU = Fetched.notFound ∧
      (completeState envN sRun seedU).failed = sRun.failed ∧
      envF.fetch seedU = Fetched.failure ∧
      (completeState envF sRun seedU).failed = sRun.failed + 1 :=
  ⟨rfl, c7_scenario_amended.2.1 envN sRun seedU rfl, rfl,
   c7_scenario_amended.2.2 envF sRun seedU rfl⟩

/-- C8: counterexample.  A run in which extraction on the seed page
raises after its first enqueue: the pool continues (the linked page still
delivers its record and completion is signaled) but the failure counter
stays 0, although the claim requires it to be incremented. -/
theorem c8_extraction_counterexample :
    Trace envC8 initState lsC8 sC8 ∧ isDone sC8 = true ∧ sC8.failed = 0 ∧
      sC8.delivered = [recQ] :=
  ⟨runLabels_sound (by decide), by decide, by decide, by decide⟩

/-- C8 (amended): a task whose page raises during extraction after k
enqueue iterations still completes as a normal step: it keeps only its
first k enqueues, discards its record, leaves the results, the seen
entity ids and the failure counter unchanged, leaves the pool, and every
other running task keeps running.  The error is caught and isolated but
not counted. -/
theorem c8_extraction_amended (env : Env) (s : State) (u : String)
    (hrefs : List String) (app : Option Record) (k : Nat)
    (hm : u ∈ s.running) (hf : env.fetch u = Fetched.ok hrefs true app (some k)) :
    Step env s (Label.complete u) (completeState env s u) ∧
      (completeState env s u).failed = s.failed ∧
      (completeState env s u).results = s.results ∧
      (completeState env s u).seen_app_ids = s.seen_app_ids ∧
      (completeState env s u).queue = s.queue ++ (enqueueList hrefs).take k ∧
      (completeState env s u).running = s.running.erase u ∧
      (∀ v ∈ s.running, v ≠ u → v ∈ (completeState env s u).running) := by
  refine ⟨Step.complete hm, ?_, ?_, ?_, ?_, rfl, ?_⟩
  · simp [completeState, taskEffect, hf]
  · simp [completeState, taskEffect, hf, resultsAfter]
  · simp [completeState, taskEffect, hf, idsAfter]
  · simp [completeState, taskEffect, hf]
  · intro v hv hne
    show v ∈ s.running.erase u
    exact (List.mem_erase_of_ne hne).mpr hv

/-- C8 witness: the amended statement at the concrete raising seed task
of envC8. -/
theorem c8_extraction_amended_witness :
    seedU ∈ sRun.running ∧
      envC8.fetch seedU = Fetched.ok ["/details?id=p1"] true (some recP) (some 1) ∧
      (completeState envC8 sRun seedU).failed = sRun.failed ∧
      (completeState envC8 sRun seedU).results = sRun.results :=
  have hm : seedU ∈ sRun.running := by decide
  have hf : envC8.fetch seedU = Fetched.ok ["/details?id=p1"] true (some recP) (some 1) := by
    decide
  ⟨hm, hf,
   (c8_extraction_amended envC8 sRun seedU ["/details?id=p1"] (some recP) 1 hm hf).2.1,
   (c8_extraction_amended envC8 sRun seedU ["/details?id=p1"] (some recP) 1 hm hf).2.2.1⟩

/-- C9: counterexample.  The href "a/details?id=x" passes the link
filter, absolute_url returns it unchanged, and after the seed page
completes it sits in the frontier as a non-absolute address. -/
theorem c9_absolute_counterexample :
    Trace envC9 initState lsC9 sC9 ∧ sC9.queue = ["a/details?id=x"] ∧
      linkFilter "a/details?id=x" = true ∧ IsAbsolute "a/details?id=x" = false ∧
      absolute_url "a/details?id=x" = "a/details?id=x" :=
  ⟨runLabels_sound (by decide), by decide, by decide, by decide, by decide⟩

/-- C9 (amended): absolute_url resolves exactly the links that start with
a slash against the fixed base; provided every link the environment
discovers either starts with a slash or is already absolute, every URL in
every reachable frontier is an absolute address. -/
theorem c9_absolute_amended (env : Env) (s : State) (v : String)
    (henv : ∀ u lnk, lnk ∈ hrefsOf (env.fetch u) →
        strStartsWith lnk "/" = true ∨ IsAbsolute lnk = true)
    (hreach : Reachable env s) (hv : v ∈ s.queue) : IsAbsolute v = true := by
  obtain ⟨ls, tr⟩ := hreach
  refine trace_inv (P := fun t => ∀ w ∈ t.queue, IsAbsolute w = true)
    (fun s3 l s4 hs hp => step_queue_absolute henv hs hp) tr ?_ v hv
  intro w hw
  have h2 : w = seedU := by simpa [initState] using hw
  rw [h2]
  decide

/-- C9 witness: the amended invariant evaluated in a concrete reachable
state of an environment whose single discovered link is base-relative. -/
theorem c9_absolute_amended_witness :
    IsAbsolute "https://market.android.com/details?id=z" = true :=
  c9_absolute_amended envC9w sC9w "https://market.android.com/details?id=z"
    (fun u lnk hl => by
      by_cases hu : u = seedU
      · subst hu
        have h3 : hrefsOf (envC9w.fetch seedU) = ["/details?id=z"] := by decide
        rw [h3] at hl
        have h2 : lnk = "/details?id=z" := by simpa using hl
        rw [h2]
        left
        decide
      · have h3 : hrefsOf (envC9w.fetch u) = [] := by
          show hrefsOf (if u = seedU then Fetched.ok ["/details?id=z"] true none none
            else Fetched.notFound) = []
          rw [if_neg hu]
          rfl
        rw [h3] at hl
        simp at hl)
    ⟨lsC9, runLabels_sound (by decide)⟩
    (by decide)

/-- C10: counterexample.  query_vars of "?a=b" is the empty mapping
although the text after the first question mark is "a=b": the regular
expression of the source requires at least one character before the
question mark. -/
theorem c10_query_counterexample :
    query_vars "?a=b" = [] ∧ query_vars_claim "?a=b" = [("a", "b")] ∧
      query_vars "?a=b" ≠ query_vars_claim "?a=b" :=
  ⟨by decide, by decide, by decide⟩

/-- C10 (amended): query_vars equals the claimed pipeline with the
extraction corrected to the text after the first question mark that is
immediately preceded by a non-question-mark character; a URL without such
a question mark (in particular a URL with no question mark at all) yields
the empty mapping and no id. -/
theorem c10_query_amended :
    (∀ url, query_vars url = query_vars_amended url) ∧
      (∀ url, afterFirstQmark url.toList = none →
        query_vars url = [] ∧ get_id url = none) :=
  ⟨query_vars_eq_amended, fun url h => query_vars_empty_of_no_qmark h⟩

/-- C10 witness: the amended statement at concrete URLs, one with a
query carrying a repeated key and a part with no equals sign, one with no
question mark. -/
theorem c10_query_amended_witness :
    query_vars "x?a=1&a=2&b" = query_vars_amended "x?a=1&a=2&b" ∧
      afterFirstQmark "abc".toList = none ∧
      (query_vars "abc" = [] ∧ get_id "abc" = none) :=
  ⟨c10_query_amended.1 "x?a=1&a=2&b", by decide, c10_query_amended.2 "abc" (by decide)⟩

end Crawler
